import Mathlib

/-!
Verification of the entity anonymization engine of the Qtanon repository
(files Qtanon.py and fake-plates.py).

Shallow-embedding conventions:

* Python strings are modelled as `List Char` (abbreviated `Str`); Python code
  points map to Lean `Char` scalar values.
* `str.lower()` / `re.IGNORECASE` are modelled with `Char.toLower`, and the
  regex word class (for the boundary assertion in the anonymize patterns) with
  ASCII alphanumerics plus underscore; this matches Python on the ASCII inputs
  the tool manipulates.
* `re.sub(pattern, repl, text)`, where every pattern built by the program is a
  `re.escape`d literal, optionally wrapped in word-boundary assertions, is
  modelled by the explicit left-to-right, non-overlapping scanner `scanSub`.
  Matching is performed against the original text (as in `re.sub`), and the
  replacement text is taken literally (the program only feeds placeholder and
  entity strings to `re.sub`; Python's backslash template escapes in the
  replacement argument are outside the scope of this embedding).
* Python's in-place `list.sort(key=..., reverse=True)` (a stable descending
  sort) is modelled by the stable insertion sort `sortDescBy`, and the
  mutation of the caller's list is made explicit: `anonymize_text_logic` and
  `de_anonymize_text_logic` return the processed text together with the list
  as the caller observes it after the call.
* The spaCy model loading, markdown cleaning and file I/O surrounding
  `extract_entities_to_csv_data` and `read_csv_mapping_for_gui` are external
  collaborators; the entity recognizer output is passed in as a list of
  `(surface text, type label)` detections, and the CSV file is passed in as
  `Option (List (List Str))` with `none` standing for an unreadable resource.
-/

namespace Qtanon

/-- Python strings are modelled as lists of characters. -/
abbrev Str := List Char

/-- Word characters of the regex word class used by the boundary assertion:
ASCII letters, digits and underscore (ASCII approximation of Python's
Unicode word class). -/
def isWordChar (c : Char) : Bool := c.isAlphanum || c == '_'

/-- Word-character test on an optional character; the absent character at
either end of the text counts as a non-word character. -/
def isWordB : Option Char → Bool
  | none => false
  | some c => isWordChar c

/-- Case-insensitive character comparison, modelling `re.IGNORECASE`. -/
def charIEq (a b : Char) : Bool := a.toLower == b.toLower

/-- Case-insensitive literal match of `pat` against the beginning of the
text (the whole `pat` must be matched). -/
def matchCI : Str → Str → Bool
  | [], _ => true
  | _ :: _, [] => false
  | a :: as, b :: bs => charIEq a b && matchCI as bs

/-- Case-sensitive literal match of `pat` against the beginning of the text,
modelling Python's `str.startswith`. -/
def matchCS : Str → Str → Bool
  | [], _ => true
  | _ :: _, [] => false
  | a :: as, b :: bs => (a == b) && matchCS as bs

/-- Whether `pre` is an initial segment of `s` (Python `s.startswith(pre)`). -/
def strStartsWith (pre s : Str) : Bool := matchCS pre s

/-- Whether `pat` occurs (case-sensitively) as a contiguous substring of `t`. -/
def containsSub (t pat : Str) : Bool :=
  (List.range (t.length + 1)).any (fun i => matchCS pat (t.drop i))

/-- Whether the regex `pat` (the literal `p0 :: ps`, with word-boundary
assertions on both sides when `useB` is true) matches at the current
position of the text `t`; `prev` is the character of the original text
immediately before this position, if any. -/
def hit (p0 : Char) (ps : Str) (useB : Bool) (prev : Option Char) (t : Str) : Bool :=
  match t with
  | [] => false
  | c :: rest =>
    matchCI (p0 :: ps) (c :: rest) &&
      (!useB ||
        ((isWordB prev != isWordChar c) &&
          (isWordB ((c :: rest).get? ps.length) != isWordB ((c :: rest).get? (ps.length + 1)))))

/-- Left-to-right, non-overlapping substitution scanner modelling `re.sub`
with an escaped-literal pattern `p0 :: ps`: every match is replaced by
`repl k` where `k` counts the matches already replaced (this realizes both a
constant replacement string and the `PersonNameReplacer` callable).  Matches
are located in the original text, so `prev` always carries the original
character preceding the current position.  The fuel argument only serves
structural termination; it never runs out when initialized with the length
of the text, since every step consumes at least one character. -/
def scanSub (p0 : Char) (ps : Str) (useB : Bool) (repl : Nat → Str) :
    Nat → Option Char → Nat → Str → Str
  | 0, _, _, t => t
  | _ + 1, _, _, [] => []
  | fuel + 1, prev, k, c :: rest =>
    if hit p0 ps useB prev (c :: rest) then
      repl k ++ scanSub p0 ps useB repl fuel ((c :: rest).get? ps.length) (k + 1)
        ((c :: rest).drop (ps.length + 1))
    else
      c :: scanSub p0 ps useB repl fuel (some c) k rest

/-- Full-text substitution of the escaped literal `pat` (with optional word
boundaries), replacing the `k`-th match with `repl k`; `re.sub` over the
whole text.  The program never builds an empty pattern (the anonymize loop
skips empty entities and the de-anonymize pattern is wrapped in literal
asterisks), so the empty-pattern case is inert. -/
def reSubAll (pat : Str) (useB : Bool) (repl : Nat → Str) (t : Str) : Str :=
  match pat with
  | [] => t
  | p0 :: ps => scanSub p0 ps useB repl t.length none 0 t

/-- Python `s.lower()` (per-character, ASCII-faithful). -/
def lowerStr (s : Str) : Str := s.map Char.toLower

/-- The bolded placeholder `f"**{base_placeholder}**"`. -/
def boldWrap (p : Str) : Str := '*' :: '*' :: (p ++ ['*', '*'])

/-- Stable insertion of `x` into a list sorted by `key` in descending order:
`x` goes after every element whose key is at least `key x`. -/
def insertDescBy (key : α → Nat) (x : α) : List α → List α
  | [] => [x]
  | y :: ys => if key x ≤ key y then y :: insertDescBy key x ys else x :: y :: ys

/-- Stable descending sort by a numeric key, modelling Python's in-place
`list.sort(key=..., reverse=True)` (Python's sort is stable). -/
def sortDescBy (key : α → Nat) (l : List α) : List α :=
  l.foldl (fun acc x => insertDescBy key x acc) []

/-- One iteration of the anonymize loop of `anonymize_text_logic`
(Qtanon.py lines 332-342): skip excluded entities, skip an empty
`entity_to_find`, otherwise substitute every case-insensitive,
word-bounded occurrence with the bolded placeholder. -/
def anonStep (exclusionsLower : List Str) (content : Str) (x : Str × Str) : Str :=
  let (base_placeholder, entity_to_find) := x
  if lowerStr entity_to_find ∈ exclusionsLower then content
  else if entity_to_find = [] then content
  else reSubAll entity_to_find true (fun _ => boldWrap base_placeholder) content

/-- Qtanon.py `anonymize_text_logic` (lines 325-343).  The first component is
the returned text; the second component is the caller's `replacements_data`
list as observed after the call (the function sorts it in place by
`len(real_entity)` descending before processing). -/
def anonymize_text_logic (content : Str) (replacements_data : List (Str × Str))
    (exclusions : List Str) : Str × List (Str × Str) :=
  let exclusionsLower := exclusions.map lowerStr
  let sorted := sortDescBy (fun x => x.2.length) replacements_data
  (sorted.foldl (anonStep exclusionsLower) content, sorted)

/-- Python whitespace test for `str.strip` / `str.split` (ASCII subset). -/
def isPySpace (c : Char) : Bool := c.isWhitespace

/-- Python `str.strip()` with no argument: remove leading and trailing
whitespace. -/
def pyStrip (s : Str) : Str :=
  ((s.dropWhile isPySpace).reverse.dropWhile isPySpace).reverse

/-- Accumulator-based worker for `splitWs`; `cur` holds the characters of the
current token in reverse. -/
def splitWsGo (cur : Str) : Str → List Str
  | [] => if cur = [] then [] else [cur.reverse]
  | c :: rest =>
    if isPySpace c then
      if cur = [] then splitWsGo [] rest else cur.reverse :: splitWsGo [] rest
    else splitWsGo (c :: cur) rest

/-- Python `str.split()` with no argument: split on runs of whitespace,
dropping empty pieces. -/
def splitWs (s : Str) : List Str := splitWsGo [] s

/-- One iteration of the de-anonymize loop of `de_anonymize_text_logic`
(Qtanon.py lines 356-378).  An empty placeholder is skipped.  For a
`person_` placeholder with a multi-token `real_entity`, the
`PersonNameReplacer` callable substitutes the full name for the first match
and the last token thereafter; in every other case (single-token person,
`org_`/`place_`/`thing_`/`misc_`/`group_`, and the unknown-prefix fallback,
which differ in the source only by the log message) every match of the
bolded placeholder is replaced with `real_entity`. -/
def de_anon_step (content : Str) (x : Str × Str) : Str :=
  let (base_placeholder, real_entity) := x
  if base_placeholder = [] then content
  else
    let pat := boldWrap base_placeholder
    if strStartsWith "person_".toList base_placeholder then
      let name_parts := splitWs real_entity
      let last_name := name_parts.getLastD real_entity
      if name_parts.length ≤ 1 then reSubAll pat false (fun _ => real_entity) content
      else reSubAll pat false (fun k => if k = 0 then real_entity else last_name) content
    else reSubAll pat false (fun _ => real_entity) content

/-- Qtanon.py `de_anonymize_text_logic` (lines 352-379).  As with
`anonymize_text_logic`, the second component is the caller's list after the
in-place sort by `len(base_placeholder)` descending. -/
def de_anonymize_text_logic (content : Str) (replacements_data : List (Str × Str)) :
    Str × List (Str × Str) :=
  let sorted := sortDescBy (fun x => x.1.length) replacements_data
  (sorted.foldl de_anon_step content, sorted)

/-! Entity extraction (`extract_entities_to_csv_data`). -/

/-- Qtanon.py `OTHER_TYPE_SPACY_LABELS` (line 61). -/
def OTHER_TYPE_SPACY_LABELS : List Str :=
  ["TIME".toList, "PERCENT".toList, "QUANTITY".toList, "ORDINAL".toList,
   "CARDINAL".toList, "LANGUAGE".toList, "LAW".toList]

/-- Qtanon.py `placeholder_prefix_map.get(label, "misc")` (lines 293-297, 307). -/
def placeholderCatMap (label : Str) : Str :=
  if label = "PERSON".toList then "person".toList
  else if label = "ORG".toList then "org".toList
  else if label = "GPE".toList then "place".toList
  else if label = "LOC".toList then "place".toList
  else if label = "FAC".toList then "place".toList
  else if label = "PRODUCT".toList then "thing".toList
  else if label = "EVENT".toList then "thing".toList
  else if label = "WORK_OF_ART".toList then "thing".toList
  else if label = "LAW".toList then "thing".toList
  else if label = "LANGUAGE".toList then "thing".toList
  else "misc".toList

/-- The category list `["person", "org", "place", "thing"]` of the numeric
demotion test (Qtanon.py line 311). -/
def fourCats : List Str :=
  ["person".toList, "org".toList, "place".toList, "thing".toList]

/-- Whether a detection's label passes the selected-labels filter
(Qtanon.py lines 300-304). -/
def selPass (selected : List Str) (label : Str) : Bool :=
  decide (label ∈ selected) ||
    (decide ("OTHER_TYPES".toList ∈ selected) && decide (label ∈ OTHER_TYPE_SPACY_LABELS))

/-- Python `str.isnumeric()` (ASCII-digit approximation). -/
def pyIsNumeric (s : Str) : Bool := !s.isEmpty && s.all Char.isDigit

/-- Decimal digit character. -/
def digitChar (d : Nat) : Char := Char.ofNat (48 + d)

/-- Fuel-based worker producing the decimal digits of a natural number. -/
def natCharsAux : Nat → Nat → Str
  | 0, _ => []
  | fuel + 1, n =>
    if n < 10 then [digitChar n]
    else natCharsAux fuel (n / 10) ++ [digitChar (n % 10)]

/-- Decimal representation of a natural number (no padding), as produced by
Python's default integer formatting. -/
def natChars (n : Nat) : Str := natCharsAux (n + 1) n

/-- Python `f"{n:03d}"`: the decimal representation zero-padded on the left
to at least three characters. -/
def fmt03 (n : Nat) : Str :=
  List.replicate (3 - (natChars n).length) '0' ++ natChars n

/-- Placeholder text `f"{label_prefix}_{count:03d}"` (Qtanon.py line 316). -/
def render (cat : Str) (n : Nat) : Str := cat ++ '_' :: fmt03 n

/-- Update of the per-category counter dictionary
(`counts[label_prefix] = counts.get(label_prefix, 0) + 1`). -/
def bump (counts : Str → Nat) (cat : Str) : Str → Nat :=
  fun c => if c = cat then counts cat + 1 else counts c

/-- One iteration of the `for ent in doc.ents` loop of Qtanon.py
`extract_entities_to_csv_data` (lines 299-319).  The state is the insertion
ordered map from surface text to placeholder together with the per-category
counters. -/
def extractStep (selected : List Str) (st : List (Str × Str) × (Str → Nat))
    (d : Str × Str) : List (Str × Str) × (Str → Nat) :=
  let (text, label) := d
  if selPass selected label then
    let entity_text := pyStrip text
    let cat0 := placeholderCatMap label
    if entity_text = [] ∨ entity_text.length < 2 then st
    else
      let cat := if pyIsNumeric entity_text && decide (cat0 ∈ fourCats)
        then "misc".toList else cat0
      if st.1.any (fun q => q.1 == entity_text) then st
      else (st.1 ++ [(entity_text, render cat (st.2 cat + 1))], bump st.2 cat)
  else st

/-- Qtanon.py `extract_entities_to_csv_data` (lines 277-322), restricted to
its pure core: the spaCy detections (surface text, type label) are passed in
directly, the model loading and markdown cleaning being external
collaborators.  Returns the `[base_placeholder, real_entity_name]` rows in
first-seen order of surface text. -/
def extract_entities_to_csv_data (ents : List (Str × Str)) (selected : List Str) :
    List (Str × Str) :=
  let st := ents.foldl (extractStep selected) ([], fun _ => 0)
  st.1.map (fun q => (q.2, q.1))

/-! The fake-plates.py variant of the extractor. -/

/-- fake-plates.py `target_labels_map.get(label, "misc")` (lines 87-96, 102). -/
def fpCatMap (label : Str) : Str :=
  if label = "PERSON".toList then "person".toList
  else if label = "ORG".toList then "org".toList
  else if label = "GPE".toList then "place".toList
  else if label = "LOC".toList then "place".toList
  else if label = "FAC".toList then "place".toList
  else if label = "NORP".toList then "group".toList
  else if label = "EVENT".toList then "event".toList
  else "misc".toList

/-- fake-plates.py: the spaCy labels whose purely numeric detections are
still admitted (lines 109-111). -/
def fpNumericSafe : List Str :=
  ["MONEY".toList, "DATE".toList, "TIME".toList, "PERCENT".toList,
   "QUANTITY".toList, "ORDINAL".toList, "CARDINAL".toList]

/-- One iteration of the detection loop of fake-plates.py
`extract_entities_to_csv_data` (lines 99-119): unlike the Qtanon.py
variant, a purely numeric detection whose label is not numeric-safe is
skipped outright, and the placeholder number is not zero-padded. -/
def fpStep (st : List (Str × Str) × (Str → Nat)) (d : Str × Str) :
    List (Str × Str) × (Str → Nat) :=
  let (text, label) := d
  let entity_text := pyStrip text
  let cat := fpCatMap label
  if entity_text = [] ∨ entity_text.length < 2 then st
  else if pyIsNumeric entity_text && !decide (label ∈ fpNumericSafe) then st
  else if st.1.any (fun q => q.1 == entity_text) then st
  else (st.1 ++ [(entity_text, cat ++ '_' :: natChars (st.2 cat + 1))], bump st.2 cat)

/-- fake-plates.py `extract_entities_to_csv_data` (lines 60-126), pure core. -/
def fp_extract_entities_to_csv_data (ents : List (Str × Str)) : List (Str × Str) :=
  let st := ents.foldl fpStep ([], fun _ => 0)
  st.1.map (fun q => (q.2, q.1))

/-! CSV mapping loader (`read_csv_mapping_for_gui`). -/

/-- The per-row loop of Qtanon.py `read_csv_mapping_for_gui` (lines 413-419):
a row with at least two columns whose first two columns are nonempty after
stripping is appended to the accumulator; every other row is dropped and one
warning is recorded. -/
def read_csv_loop (acc : List (Str × Str)) (w : Nat) :
    List (List Str) → List (Str × Str) × Nat
  | [] => (acc, w)
  | row :: rest =>
    if 2 ≤ row.length then
      let c1 := pyStrip (row.getD 0 [])
      let c2 := pyStrip (row.getD 1 [])
      if c1 = [] ∨ c2 = [] then read_csv_loop acc (w + 1) rest
      else read_csv_loop (acc ++ [(c1, c2)]) w rest
    else read_csv_loop acc (w + 1) rest

/-- Qtanon.py `read_csv_mapping_for_gui` (lines 404-423).  The file system is
abstracted: `none` stands for an unreadable resource (missing file,
permission or decode error), in which case the function returns `none`; a
readable file is the list of its parsed CSV rows.  The result pairs the
loaded entries with the number of warnings recorded (one per dropped row,
one for an empty file after optionally skipping the header, and one when no
valid data row was found). -/
def read_csv_mapping_for_gui (source : Option (List (List Str))) (has_header : Bool) :
    Option (List (Str × Str) × Nat) :=
  match source with
  | none => none
  | some rows =>
    let headerWarn := if has_header && rows.isEmpty then 1 else 0
    let dataRows := if has_header then rows.drop 1 else rows
    let res := read_csv_loop [] headerWarn dataRows
    some (res.1, res.2 + (if res.1 = [] then 1 else 0))

/-- Modelled from the spec (section 4.4): the entry a well-formed CSV row
yields, phrased as the spec phrases it — kept iff the row has at least two
columns and both trimmed columns are nonempty. -/
def csvRowEntrySpec (row : List Str) : Option (Str × Str) :=
  if 2 ≤ row.length then
    let c1 := pyStrip (row.getD 0 [])
    let c2 := pyStrip (row.getD 1 [])
    if c1 = [] ∨ c2 = [] then none else some (c1, c2)
  else none

/-- Modelled from the spec (section 4.4): the sequence of kept entries. -/
def csvKeptSpec (rows : List (List Str)) : List (Str × Str) :=
  rows.filterMap csvRowEntrySpec

/-! Occurrence decomposition machinery used to state and prove substitution
properties: a text is presented as `sepJoin pat parts`, the parts joined by
the pattern, and cleanliness predicates assert that the scanner matches
exactly at the separators. -/

/-- Join the parts of a decomposition with the separator `sep`. -/
def sepJoin (sep : Str) : List Str → Str
  | [] => []
  | [a] => a
  | a :: b :: rest => a ++ sep ++ sepJoin sep (b :: rest)

/-- Join the parts with the per-occurrence replacement texts `repl k`,
`repl (k+1)`, ... in place of the separators. -/
def gapJoin (repl : Nat → Str) (k : Nat) : List Str → Str
  | [] => []
  | [a] => a
  | a :: b :: rest => a ++ repl k ++ gapJoin repl (k + 1) (b :: rest)

/-- The character of the original text seen by the scanner immediately after
it has copied `a`, given that the character before `a` was `prev`. -/
def endPrev (prev : Option Char) : Str → Option Char
  | [] => prev
  | c :: a => some (a.getLastD c)

/-- No match of the pattern is triggered at any position of `t` (given the
preceding character `prev`). -/
def cleanStr (p0 : Char) (ps : Str) (useB : Bool) : Option Char → Str → Bool
  | _, [] => true
  | prev, c :: rest => !hit p0 ps useB prev (c :: rest) && cleanStr p0 ps useB (some c) rest

/-- No match of the pattern is triggered at any position inside `a` when the
text continues with `s` (matches straddling the border of `a` and `s` are
also ruled out). -/
def cleanBefore (p0 : Char) (ps : Str) (useB : Bool) : Option Char → Str → Str → Bool
  | _, [], _ => true
  | prev, c :: a, s =>
    !hit p0 ps useB prev (c :: (a ++ s)) && cleanBefore p0 ps useB (some c) a s

/-- The scanner on `sepJoin (p0 :: ps) parts` matches exactly at the
separators: no match is triggered inside any part (or straddling out of a
part), and every separator position is an actual match (for a boundary-free
pattern the latter is automatic; with boundaries it asserts the word
boundary conditions at the junctions). -/
def cleanPartsB (p0 : Char) (ps : Str) (useB : Bool) : Option Char → List Str → Bool
  | _, [] => true
  | prev, [a] => cleanStr p0 ps useB prev a
  | prev, a :: b :: rest =>
    cleanBefore p0 ps useB prev a ((p0 :: ps) ++ sepJoin (p0 :: ps) (b :: rest)) &&
      hit p0 ps useB (endPrev prev a) ((p0 :: ps) ++ sepJoin (p0 :: ps) (b :: rest)) &&
      cleanPartsB p0 ps useB (some (ps.getLastD p0)) (b :: rest)

/-- Cleanliness of a decomposition for a (nonempty) pattern, starting at the
beginning of the text. -/
def cleanForB (pat : Str) (useB : Bool) (parts : List Str) : Bool :=
  match pat with
  | [] => false
  | p0 :: ps => cleanPartsB p0 ps useB none parts

/-- Decimal value of a digit string (leading zeros allowed); inverse of the
formatting functions, used to prove placeholder injectivity. -/
def decodeDec (s : Str) : Nat := s.foldl (fun a c => a * 10 + (c.toNat - 48)) 0

/-- Invariant of the extraction state: the placeholders recorded so far are
pairwise distinct, and each is `render cat n` for an underscore-free
category with `1 ≤ n` at most the category's counter. -/
def extInv (st : List (Str × Str) × (Str → Nat)) : Prop :=
  (st.1.map (fun q => q.2)).Nodup ∧
    ∀ q ∈ st.1, ∃ cat n, ('_' ∉ cat) ∧ 1 ≤ n ∧ n ≤ st.2 cat ∧ q.2 = render cat n

/-! Helper lemmas about the stable descending sort. -/

theorem mem_insertDescBy (key : α → Nat) (x y : α) :
    ∀ l : List α, y ∈ insertDescBy key x l ↔ y = x ∨ y ∈ l := by
  intro l
  induction l with
  | nil => simp [insertDescBy]
  | cons z zs ih =>
    simp only [insertDescBy]
    split
    · simp only [List.mem_cons, ih]
      tauto
    · simp only [List.mem_cons]

theorem mem_sortDescBy (key : α → Nat) (l : List α) (y : α) :
    y ∈ sortDescBy key l ↔ y ∈ l := by
  have main : ∀ (l acc : List α),
      (y ∈ l.foldl (fun a x => insertDescBy key x a) acc ↔ y ∈ l ∨ y ∈ acc) := by
    intro l
    induction l with
    | nil => simp
    | cons z zs ih =>
      intro acc
      simp only [List.foldl_cons, ih, mem_insertDescBy, List.mem_cons]
      tauto
  simpa [sortDescBy] using main l []

theorem pairwise_insertDescBy (key : α → Nat) (x : α) (l : List α)
    (h : l.Pairwise (fun a b => key b ≤ key a)) :
    (insertDescBy key x l).Pairwise (fun a b => key b ≤ key a) := by
  induction l with
  | nil => simp [insertDescBy]
  | cons y ys ih =>
    rcases List.pairwise_cons.mp h with ⟨hy, hys⟩
    by_cases hk : key x ≤ key y
    · simp only [insertDescBy, if_pos hk]
      refine List.pairwise_cons.mpr ⟨?_, ih hys⟩
      intro z hz
      rcases (mem_insertDescBy key x z ys).mp hz with rfl | hz'
      · exact hk
      · exact hy z hz'
    · simp only [insertDescBy, if_neg hk]
      refine List.pairwise_cons.mpr ⟨?_, h⟩
      intro z hz
      rcases List.mem_cons.mp hz with rfl | hz'
      · omega
      · have := hy z hz'
        omega

theorem pairwise_sortDescBy (key : α → Nat) (l : List α) :
    (sortDescBy key l).Pairwise (fun a b => key b ≤ key a) := by
  have main : ∀ (l acc : List α), acc.Pairwise (fun a b => key b ≤ key a) →
      (l.foldl (fun a x => insertDescBy key x a) acc).Pairwise (fun a b => key b ≤ key a) := by
    intro l
    induction l with
    | nil => intro acc h; exact h
    | cons z zs ih => intro acc h; exact ih _ (pairwise_insertDescBy key z acc h)
  exact main l [] (by simp)

theorem foldl_fixed {f : β → α → β} {l : List α} (h : ∀ b x, x ∈ l → f b x = b) :
    ∀ b, l.foldl f b = b := by
  induction l with
  | nil => intro b; rfl
  | cons y ys ih =>
    intro b
    rw [List.foldl_cons, h b y (by simp)]
    exact ih (fun b x hx => h b x (by simp [hx])) b

/-! Helper lemmas about the substitution scanner. -/

theorem matchCI_self_append (p s : Str) : matchCI p (p ++ s) = true := by
  induction p with
  | nil => rfl
  | cons a p ih => simp [matchCI, charIEq, ih]

theorem endPrev_cons (prev : Option Char) (c : Char) (a : Str) :
    endPrev prev (c :: a) = endPrev (some c) a := by
  cases a with
  | nil => rfl
  | cons d a =>
    show some ((d :: a).getLastD c) = some (a.getLastD d)
    rw [List.getLastD_cons]

theorem get?_pat_append_last (p0 : Char) (ps s : Str) :
    ((p0 :: ps) ++ s).get? ps.length = some (ps.getLastD p0) := by
  induction ps generalizing p0 with
  | nil => rfl
  | cons q ps ih =>
    show ((q :: ps) ++ s).get? ps.length = _
    rw [ih q, List.getLastD_cons]

theorem scanSub_clean (p0 : Char) (ps : Str) (useB : Bool) (repl : Nat → Str) :
    ∀ (t : Str) (fuel : Nat) (prev : Option Char) (k : Nat),
      t.length ≤ fuel → cleanStr p0 ps useB prev t = true →
      scanSub p0 ps useB repl fuel prev k t = t := by
  intro t
  induction t with
  | nil => intro fuel prev k _ _; cases fuel <;> rfl
  | cons c rest ih =>
    intro fuel prev k hlen hclean
    cases fuel with
    | zero => simp at hlen
    | succ f =>
      simp only [cleanStr, Bool.and_eq_true, Bool.not_eq_true'] at hclean
      simp only [scanSub, hclean.1, Bool.false_eq_true, if_false]
      exact congrArg (List.cons c)
        (ih f (some c) k (by simp only [List.length_cons] at hlen; omega) hclean.2)

theorem scanSub_cleanBefore (p0 : Char) (ps : Str) (useB : Bool) (repl : Nat → Str) :
    ∀ (a s : Str) (fuel : Nat) (prev : Option Char) (k : Nat),
      (a ++ s).length ≤ fuel → cleanBefore p0 ps useB prev a s = true →
      scanSub p0 ps useB repl fuel prev k (a ++ s) =
        a ++ scanSub p0 ps useB repl (fuel - a.length) (endPrev prev a) k s := by
  intro a
  induction a with
  | nil => intro s fuel prev k _ _; simp [endPrev]
  | cons c a ih =>
    intro s fuel prev k hlen hclean
    cases fuel with
    | zero => simp at hlen
    | succ f =>
      simp only [cleanBefore, Bool.and_eq_true, Bool.not_eq_true'] at hclean
      show scanSub p0 ps useB repl (f + 1) prev k (c :: (a ++ s)) = _
      simp only [scanSub, hclean.1, Bool.false_eq_true, if_false]
      rw [ih s f (some c) k
        (by simp only [List.cons_append, List.length_cons, List.length_append] at hlen ⊢
            omega) hclean.2]
      rw [endPrev_cons]
      simp [Nat.succ_sub_succ]

theorem scanSub_hit_pat (p0 : Char) (ps : Str) (useB : Bool) (repl : Nat → Str)
    (s : Str) (fuel : Nat) (prev : Option Char) (k : Nat)
    (hh : hit p0 ps useB prev ((p0 :: ps) ++ s) = true) :
    scanSub p0 ps useB repl (fuel + 1) prev k ((p0 :: ps) ++ s) =
      repl k ++ scanSub p0 ps useB repl fuel (some (ps.getLastD p0)) (k + 1) s := by
  show scanSub p0 ps useB repl (fuel + 1) prev k (p0 :: (ps ++ s)) = _
  have hh' : hit p0 ps useB prev (p0 :: (ps ++ s)) = true := hh
  simp only [scanSub, hh', if_true]
  have hget : (p0 :: (ps ++ s)).get? ps.length = some (ps.getLastD p0) :=
    get?_pat_append_last p0 ps s
  have hdrop : (p0 :: (ps ++ s)).drop (ps.length + 1) = s := by
    simp
  rw [hget, hdrop]

theorem scanSub_sepJoin (p0 : Char) (ps : Str) (useB : Bool) (repl : Nat → Str) :
    ∀ (parts : List Str) (fuel : Nat) (prev : Option Char) (k : Nat),
      (sepJoin (p0 :: ps) parts).length ≤ fuel →
      cleanPartsB p0 ps useB prev parts = true →
      scanSub p0 ps useB repl fuel prev k (sepJoin (p0 :: ps) parts) = gapJoin repl k parts := by
  intro parts
  induction parts with
  | nil => intro fuel prev k _ _; cases fuel <;> rfl
  | cons a tail ih =>
    cases tail with
    | nil =>
      intro fuel prev k hlen hclean
      simp only [cleanPartsB] at hclean
      simp only [sepJoin, gapJoin]
      exact scanSub_clean p0 ps useB repl a fuel prev k hlen hclean
    | cons b rest =>
      intro fuel prev k hlen hclean
      simp only [cleanPartsB, Bool.and_eq_true] at hclean
      obtain ⟨⟨hpre, hhit⟩, htail⟩ := hclean
      have hsj : sepJoin (p0 :: ps) (a :: b :: rest) =
          a ++ ((p0 :: ps) ++ sepJoin (p0 :: ps) (b :: rest)) := by
        simp [sepJoin, List.append_assoc]
      rw [hsj] at hlen ⊢
      rw [scanSub_cleanBefore p0 ps useB repl a _ fuel prev k hlen hpre]
      have hlen2 : ((p0 :: ps) ++ sepJoin (p0 :: ps) (b :: rest)).length ≤ fuel - a.length := by
        simp only [List.length_append] at hlen ⊢
        omega
      obtain ⟨f2, hf2⟩ : ∃ f2, fuel - a.length = f2 + 1 := by
        refine ⟨fuel - a.length - 1, ?_⟩
        simp only [List.length_append, List.length_cons] at hlen2
        omega
      rw [hf2]
      rw [scanSub_hit_pat p0 ps useB repl _ f2 (endPrev prev a) k hhit]
      rw [ih f2 (some (ps.getLastD p0)) (k + 1)
        (by rw [hf2] at hlen2
            simp only [List.length_append, List.length_cons] at hlen2
            omega) htail]
      simp [gapJoin, List.append_assoc]

theorem reSubAll_sepJoin (pat : Str) (useB : Bool) (repl : Nat → Str) (parts : List Str)
    (hclean : cleanForB pat useB parts = true) :
    reSubAll pat useB repl (sepJoin pat parts) = gapJoin repl 0 parts := by
  cases pat with
  | nil => simp [cleanForB] at hclean
  | cons p0 ps =>
    exact scanSub_sepJoin p0 ps useB repl parts _ none 0 le_rfl hclean

theorem gapJoin_const (v : Str) : ∀ (parts : List Str) (k : Nat),
    gapJoin (fun _ => v) k parts = sepJoin v parts := by
  intro parts
  induction parts with
  | nil => intro k; rfl
  | cons a tail ih =>
    intro k
    cases tail with
    | nil => rfl
    | cons b rest => simp [gapJoin, sepJoin, ih]

/-! Helper lemmas about tokenization and the singleton substitution calls. -/

theorem splitWsGo_nospace :
    ∀ (r : Str), (∀ c ∈ r, isPySpace c = false) → ∀ acc : Str,
      splitWsGo acc r = if acc = [] ∧ r = [] then [] else [acc.reverse ++ r] := by
  intro r
  induction r with
  | nil =>
    intro _ acc
    by_cases h : acc = [] <;> simp [splitWsGo, h]
  | cons c rest ih =>
    intro hall acc
    have hc : isPySpace c = false := hall c (by simp)
    simp only [splitWsGo, hc, Bool.false_eq_true, if_false]
    rw [ih (fun d hd => hall d (by simp [hd])) (c :: acc)]
    simp [List.append_assoc]

theorem splitWs_single (r : Str) (hne : r ≠ []) (hall : r.all (fun c => !isPySpace c) = true) :
    splitWs r = [r] := by
  have hall' : ∀ c ∈ r, isPySpace c = false := by
    intro c hc
    have := (List.all_eq_true.mp hall) c hc
    simpa using this
  unfold splitWs
  rw [splitWsGo_nospace r hall' []]
  simp [hne]

theorem anonymize_single (t : Str) (p e : Str) (he : e ≠ []) :
    (anonymize_text_logic t [(p, e)] []).1 = reSubAll e true (fun _ => boldWrap p) t := by
  show anonStep [] t (p, e) = _
  simp [anonStep, he]

theorem de_anonymize_single (t : Str) (x : Str × Str) :
    (de_anonymize_text_logic t [x]).1 = de_anon_step t x := rfl

/-! Helper lemmas for decimal formatting and placeholder injectivity. -/

theorem digitChar_toNat (d : Nat) (hd : d < 10) : (digitChar d).toNat = 48 + d := by
  interval_cases d <;> decide

theorem decodeDec_natCharsAux :
    ∀ (fuel n : Nat), n < 10 ^ fuel → decodeDec (natCharsAux fuel n) = n := by
  intro fuel
  induction fuel with
  | zero =>
    intro n hn
    simp only [pow_zero, Nat.lt_one_iff] at hn
    subst hn
    rfl
  | succ f ih =>
    intro n hn
    by_cases h10 : n < 10
    · simp only [natCharsAux, h10, if_true]
      show 0 * 10 + ((digitChar n).toNat - 48) = n
      rw [digitChar_toNat n h10]
      omega
    · simp only [natCharsAux, h10, if_false]
      unfold decodeDec
      rw [List.foldl_append]
      have hdiv : n / 10 < 10 ^ f := by
        rw [Nat.div_lt_iff_lt_mul (by norm_num)]
        calc n < 10 ^ (f + 1) := hn
          _ = 10 ^ f * 10 := by rw [pow_succ]
      have := ih (n / 10) hdiv
      unfold decodeDec at this
      rw [this]
      show (n / 10) * 10 + ((digitChar (n % 10)).toNat - 48) = n
      rw [digitChar_toNat _ (Nat.mod_lt n (by norm_num))]
      omega

theorem decodeDec_natChars (n : Nat) : decodeDec (natChars n) = n := by
  apply decodeDec_natCharsAux
  calc n < 2 ^ n := Nat.lt_two_pow n
    _ ≤ 10 ^ n := Nat.pow_le_pow_left (by norm_num) n
    _ ≤ 10 ^ (n + 1) := Nat.pow_le_pow_right (by norm_num) (Nat.le_succ n)

theorem decodeDec_replicate_zero (k : Nat) (s : Str) :
    decodeDec (List.replicate k '0' ++ s) = decodeDec s := by
  induction k with
  | zero => rfl
  | succ m ih =>
    have hx : (List.replicate (m + 1) '0' ++ s) = '0' :: (List.replicate m '0' ++ s) := by
      simp [List.replicate_succ]
    rw [hx]
    show (List.replicate m '0' ++ s).foldl _ (0 * 10 + ('0'.toNat - 48)) = _
    have h0 : 0 * 10 + ('0'.toNat - 48) = 0 := by decide
    rw [h0]
    exact ih

theorem fmt03_inj (a b : Nat) (h : fmt03 a = fmt03 b) : a = b := by
  have h2 := congrArg decodeDec h
  rwa [fmt03, fmt03, decodeDec_replicate_zero, decodeDec_replicate_zero,
    decodeDec_natChars, decodeDec_natChars] at h2

theorem append_underscore_inj :
    ∀ (a1 a2 b1 b2 : Str), '_' ∉ a1 → '_' ∉ a2 →
      a1 ++ '_' :: b1 = a2 ++ '_' :: b2 → a1 = a2 ∧ b1 = b2 := by
  intro a1
  induction a1 with
  | nil =>
    intro a2 b1 b2 _ h2 h
    cases a2 with
    | nil => simpa using h
    | cons c a2 =>
      simp only [List.nil_append, List.cons_append, List.cons.injEq] at h
      exact absurd (h.1 ▸ List.mem_cons_self '_' a2) h2
  | cons c a1 ih =>
    intro a2 b1 b2 h1 h2 h
    cases a2 with
    | nil =>
      simp only [List.nil_append, List.cons_append, List.cons.injEq] at h
      exact absurd (h.1.symm ▸ List.mem_cons_self '_' a1) h1
    | cons d a2 =>
      simp only [List.cons_append, List.cons.injEq] at h
      obtain ⟨rfl, htail⟩ := h
      have := ih a2 b1 b2 (fun hm => h1 (List.mem_cons_of_mem c hm))
        (fun hm => h2 (List.mem_cons_of_mem c hm)) htail
      exact ⟨by rw [this.1], this.2⟩

theorem render_inj (c1 c2 : Str) (n1 n2 : Nat) (h1 : '_' ∉ c1) (h2 : '_' ∉ c2)
    (h : render c1 n1 = render c2 n2) : c1 = c2 ∧ n1 = n2 := by
  obtain ⟨hc, hf⟩ := append_underscore_inj c1 c2 (fmt03 n1) (fmt03 n2) h1 h2 h
  exact ⟨hc, fmt03_inj _ _ hf⟩

/-! Helper lemmas for the extraction invariant. -/

theorem placeholderCatMap_no_underscore (l : Str) : '_' ∉ placeholderCatMap l := by
  unfold placeholderCatMap
  repeat' split
  all_goals decide

theorem bump_ge (counts : Str → Nat) (cat c : Str) : counts c ≤ bump counts cat c := by
  unfold bump
  split
  · rename_i h
    rw [h]
    omega
  · exact le_rfl

theorem extInv_step (sel : List Str) (st : List (Str × Str) × (Str → Nat)) (d : Str × Str)
    (h : extInv st) : extInv (extractStep sel st d) := by
  obtain ⟨t, l⟩ := d
  simp only [extractStep]
  split
  · split
    · exact h
    · split
      · exact h
      · rename_i hsel hlen hseen
        set cat := if pyIsNumeric (pyStrip t) && decide (placeholderCatMap l ∈ fourCats)
          then "misc".toList else placeholderCatMap l with hcat
        have hcu : '_' ∉ cat := by
          rw [hcat]
          split
          · decide
          · exact placeholderCatMap_no_underscore l
        constructor
        · rw [List.map_append]
          rw [List.nodup_append]
          refine ⟨h.1, List.nodup_singleton _, ?_⟩
          intro x hx hx'
          simp only [List.map_cons, List.map_nil, List.mem_singleton] at hx'
          subst hx'
          obtain ⟨q, hq, hq2⟩ := List.mem_map.mp hx
          obtain ⟨cat', n', hcu', h1', h2', he'⟩ := h.2 q hq
          rw [he'] at hq2
          obtain ⟨hceq, hneq⟩ := render_inj cat' cat n' (st.2 cat + 1) hcu' hcu hq2
          subst hceq
          omega
        · intro q hq
          rcases List.mem_append.mp hq with hq | hq
          · obtain ⟨cat', n', hcu', h1', h2', he'⟩ := h.2 q hq
            exact ⟨cat', n', hcu', h1', le_trans h2' (bump_ge st.2 cat cat'), he'⟩
          · simp only [List.mem_singleton] at hq
            subst hq
            refine ⟨cat, st.2 cat + 1, hcu, by omega, ?_, rfl⟩
            simp [bump]
  · exact h

/-! Helper lemma for the CSV loader. -/

theorem read_csv_loop_spec :
    ∀ (rows : List (List Str)) (acc : List (Str × Str)) (w : Nat),
      read_csv_loop acc w rows =
        (acc ++ csvKeptSpec rows,
          w + rows.countP (fun r => (csvRowEntrySpec r).isNone)) := by
  intro rows
  induction rows with
  | nil => intro acc w; simp [read_csv_loop, csvKeptSpec]
  | cons row rest ih =>
    intro acc w
    by_cases h2 : 2 ≤ row.length
    · by_cases hem : pyStrip (row.getD 0 []) = [] ∨ pyStrip (row.getD 1 []) = []
      · rw [show read_csv_loop acc w (row :: rest) = read_csv_loop acc (w + 1) rest by
          simp only [read_csv_loop]
          rw [if_pos h2, if_pos hem]]
        rw [ih]
        have hr : csvRowEntrySpec row = none := by
          simp only [csvRowEntrySpec]
          rw [if_pos h2, if_pos hem]
        simp only [csvKeptSpec, List.filterMap_cons, List.countP_cons, hr,
          Option.isNone_none, eq_self_iff_true, if_true]
        refine congrArg _ ?_
        omega
      · rw [show read_csv_loop acc w (row :: rest) =
            read_csv_loop (acc ++ [(pyStrip (row.getD 0 []), pyStrip (row.getD 1 []))]) w rest by
          simp only [read_csv_loop]
          rw [if_pos h2, if_neg hem]]
        rw [ih]
        have hr : csvRowEntrySpec row =
            some (pyStrip (row.getD 0 []), pyStrip (row.getD 1 [])) := by
          simp only [csvRowEntrySpec]
          rw [if_pos h2, if_neg hem]
        simp only [csvKeptSpec, List.filterMap_cons, List.countP_cons, hr,
          Option.isNone_some, List.append_assoc, List.singleton_append]
        rfl
    · rw [show read_csv_loop acc w (row :: rest) = read_csv_loop acc (w + 1) rest by
        simp only [read_csv_loop]
        rw [if_neg h2]]
      rw [ih]
      have hr : csvRowEntrySpec row = none := by
        simp only [csvRowEntrySpec]
        rw [if_neg h2]
      simp only [csvKeptSpec, List.filterMap_cons, List.countP_cons, hr,
        Option.isNone_none, eq_self_iff_true, if_true]
      refine congrArg _ ?_
      omega

/-! The claims. -/

/-- C10: for every text `T`, `anonymize_text_logic` with an empty entry list
and empty exclusions returns `T` unchanged, and `de_anonymize_text_logic`
with an empty entry list returns `T` unchanged. -/
theorem claim_C10_empty_entries_identity (t : Str) :
    (anonymize_text_logic t [] []).1 = t ∧ (de_anonymize_text_logic t []).1 = t :=
  ⟨rfl, rfl⟩

/-- C9: both `anonymize_text_logic` and `de_anonymize_text_logic` sort the
caller-supplied entry list in place (by entity length, resp. placeholder
length, descending) before processing, so for some input lists the caller's
sequence afterwards is permuted into descending-length order instead of its
original insertion order. -/
theorem claim_C9_in_place_sort :
    (∀ (t : Str) (E : List (Str × Str)) (X : List Str),
      (anonymize_text_logic t E X).2 = sortDescBy (fun x => x.2.length) E) ∧
    (∀ (t : Str) (E : List (Str × Str)),
      (de_anonymize_text_logic t E).2 = sortDescBy (fun x => x.1.length) E) ∧
    (anonymize_text_logic [] [("a".toList, "x".toList), ("b".toList, "yy".toList)] []).2 ≠
      [("a".toList, "x".toList), ("b".toList, "yy".toList)] ∧
    (de_anonymize_text_logic [] [("a".toList, "x".toList), ("bb".toList, "y".toList)]).2 ≠
      [("a".toList, "x".toList), ("bb".toList, "y".toList)] := by
  exact ⟨fun _ _ _ => rfl, fun _ _ => rfl, by decide, by decide⟩

/-- C4: `anonymize_text_logic` applies entries in order of decreasing length
of `real_entity` — in the processed (and returned) sequence every entry with
a strictly longer entity precedes every entry with a shorter one — and on
`"John Smith is here"` with entities `"Smith"` and `"John Smith"` the
multi-word entity is matched whole, leaving no dangling `"Smith"`. -/
theorem claim_C4_longest_first :
    (∀ E : List (Str × Str),
      (sortDescBy (fun x => x.2.length) E).Pairwise (fun a b => b.2.length ≤ a.2.length)) ∧
    (anonymize_text_logic "John Smith is here".toList
        [("person_002".toList, "Smith".toList), ("person_001".toList, "John Smith".toList)]
        []).1 =
      "**person_001** is here".toList := by
  exact ⟨fun E => pairwise_sortDescBy _ E, by decide⟩

/-- C5 (counterexample): an entry whose `real_entity` is the whitespace-only
string `" "` — empty after trimming — is not skipped by
`anonymize_text_logic`: the code only tests `if not entity_to_find`, so the
pattern `\b\ \b` is built and replaces the space of `"a b"`. -/
theorem claim_C5_counterexample :
    pyStrip " ".toList = [] ∧
    (anonymize_text_logic "a b".toList [("p".toList, " ".toList)] []).1 = "a**p**b".toList ∧
    (anonymize_text_logic "a b".toList [("p".toList, " ".toList)] []).1 ≠ "a b".toList := by
  refine ⟨by decide, by decide, by decide⟩

/-- C5 (amended): only entries whose `real_entity` is the empty string are
skipped as a no-op by `anonymize_text_logic` (whitespace-only entities are
substituted); in particular anonymizing with a list all of whose entries
have an empty `real_entity` returns the text unchanged, with no error. -/
theorem claim_C5_empty_entity_skip (t : Str) (E : List (Str × Str)) (X : List Str)
    (h : ∀ q ∈ E, q.2 = []) : (anonymize_text_logic t E X).1 = t := by
  apply foldl_fixed
  intro b x hx
  have hx' : x ∈ E := (mem_sortDescBy _ E x).mp hx
  obtain ⟨p, e⟩ := x
  have h2 : e = [] := h (p, e) hx'
  subst h2
  simp only [anonStep]
  split
  · rfl
  · rfl

/-- C5 (witness): instantiation of the amended claim on a concrete
empty-entity entry. -/
theorem claim_C5_empty_entity_skip_witness :
    (anonymize_text_logic "a b".toList [("p".toList, "".toList)] []).1 = "a b".toList :=
  claim_C5_empty_entity_skip "a b".toList [("p".toList, "".toList)] [] (by decide)

/-- C6 (counterexample): the excluded entry is skipped, but an occurrence of
the excluded entity need not appear unchanged in the result: a different,
non-excluded entry (here `"John"`) may rewrite part of it.  With
`"John Smith"` excluded, the output `"**p2** Smith"` no longer contains
`"John Smith"`. -/
theorem claim_C6_counterexample :
    lowerStr "John Smith".toList ∈ ["john smith".toList].map lowerStr ∧
    containsSub "John Smith".toList "John Smith".toList = true ∧
    (anonymize_text_logic "John Smith".toList
        [("p1".toList, "John Smith".toList), ("p2".toList, "John".toList)]
        ["john smith".toList]).1 = "**p2** Smith".toList ∧
    containsSub "**p2** Smith".toList "John Smith".toList = false := by
  refine ⟨by decide, by decide, by decide, by decide⟩

/-- C6 (amended): every entry whose lowercased `real_entity` is a member of
the lowercased exclusion set is skipped by `anonymize_text_logic` (its loop
iteration leaves the text unchanged); consequently, when every entry of the
list is excluded the text is returned unchanged.  Occurrences of an excluded
entity may still be rewritten by other, non-excluded entries. -/
theorem claim_C6_exclusion_skip (t : Str) (E : List (Str × Str)) (X : List Str)
    (h : ∀ q ∈ E, lowerStr q.2 ∈ X.map lowerStr) : (anonymize_text_logic t E X).1 = t := by
  apply foldl_fixed
  intro b x hx
  have hx' : x ∈ E := (mem_sortDescBy _ E x).mp hx
  obtain ⟨p, e⟩ := x
  have h2 : lowerStr e ∈ X.map lowerStr := h (p, e) hx'
  simp only [anonStep, if_pos h2]

/-- C6 (witness): instantiation of the amended claim on a concrete excluded
entry. -/
theorem claim_C6_exclusion_skip_witness :
    (anonymize_text_logic "John Smith".toList [("p1".toList, "John Smith".toList)]
        ["john smith".toList]).1 = "John Smith".toList :=
  claim_C6_exclusion_skip "John Smith".toList [("p1".toList, "John Smith".toList)]
    ["john smith".toList] (by decide)

/-- C3: for a `person_` entry processed by `de_anonymize_text_logic` on a
text decomposing as parts joined by the bolded placeholder (the parts
containing no other match of it), a multi-token `real_entity` replaces the
first occurrence in document order with the full `real_entity` and every
subsequent occurrence with only the last token, while a single-token
`real_entity` (nonempty, no whitespace) replaces every occurrence with that
token. -/
theorem claim_C3_person_restoration (p r : Str) (parts : List Str)
    (hp : strStartsWith "person_".toList p = true)
    (hclean : cleanForB (boldWrap p) false parts = true) :
    (2 ≤ (splitWs r).length →
      (de_anonymize_text_logic (sepJoin (boldWrap p) parts) [(p, r)]).1 =
        gapJoin (fun k => if k = 0 then r else (splitWs r).getLastD r) 0 parts) ∧
    (r ≠ [] → r.all (fun c => !isPySpace c) = true →
      (de_anonymize_text_logic (sepJoin (boldWrap p) parts) [(p, r)]).1 = sepJoin r parts) := by
  have hpne : p ≠ [] := by
    intro hnil
    rw [hnil] at hp
    simp [strStartsWith, matchCS] at hp
  constructor
  · intro hlen
    rw [de_anonymize_single]
    simp only [de_anon_step, if_neg hpne, if_pos hp, if_neg (by omega : ¬(splitWs r).length ≤ 1)]
    rw [reSubAll_sepJoin _ _ _ _ hclean]
  · intro hne hall
    have hsingle : splitWs r = [r] := splitWs_single r hne hall
    rw [de_anonymize_single]
    simp only [de_anon_step, if_neg hpne, if_pos hp, hsingle, List.length_singleton,
      le_refl, if_pos]
    rw [reSubAll_sepJoin _ _ _ _ hclean, gapJoin_const]

/-- C3 (witness): `person_001` with `"Jane Doe"` on two bolded occurrences
restores `"Jane Doe"` then `"Doe"`; with the single token `"Jane"` both
occurrences restore to `"Jane"`. -/
theorem claim_C3_person_restoration_witness :
    (de_anonymize_text_logic "**person_001** met **person_001**".toList
        [("person_001".toList, "Jane Doe".toList)]).1 = "Jane Doe met Doe".toList ∧
    (de_anonymize_text_logic "**person_001** met **person_001**".toList
        [("person_001".toList, "Jane".toList)]).1 = "Jane met Jane".toList := by
  constructor
  · have h := (claim_C3_person_restoration "person_001".toList "Jane Doe".toList
      ["".toList, " met ".toList, "".toList] (by decide) (by decide)).1 (by decide)
    exact h
  · have h := (claim_C3_person_restoration "person_001".toList "Jane".toList
      ["".toList, " met ".toList, "".toList] (by decide) (by decide)).2 (by decide) (by decide)
    exact h

/-- C1 (counterexample): the round-trip law fails as stated even for a
single entry with a unique placeholder and trivially non-overlapping
values: matching is case-insensitive, so `"CAT"` is anonymized and then
de-anonymized to the mapping's spelling `"cat"`, not restored. -/
theorem claim_C1_counterexample :
    (de_anonymize_text_logic
        (anonymize_text_logic "CAT".toList [("org_001".toList, "cat".toList)] []).1
        [("org_001".toList, "cat".toList)]).1 = "cat".toList ∧
    (de_anonymize_text_logic
        (anonymize_text_logic "CAT".toList [("org_001".toList, "cat".toList)] []).1
        [("org_001".toList, "cat".toList)]).1 ≠ "CAT".toList := by
  refine ⟨by decide, by decide⟩

/-- C1 (amended): the round trip holds for a single-entry list `[(p, e)]`
with `p` and `e` nonempty when the text decomposes as parts joined by
exactly the word-bounded, exact-case occurrences of `e` (no other
case-insensitive match of `e` and no stray match of the bolded placeholder
inside or straddling the parts), and the entry is not a multi-token person
entry; then de-anonymizing the anonymized text restores the original. -/
theorem claim_C1_roundtrip_amended (p e : Str) (parts : List Str)
    (hp : p ≠ []) (he : e ≠ [])
    (hperson : strStartsWith "person_".toList p = true → (splitWs e).length ≤ 1)
    (hce : cleanForB e true parts = true)
    (hcb : cleanForB (boldWrap p) false parts = true) :
    (de_anonymize_text_logic
        (anonymize_text_logic (sepJoin e parts) [(p, e)] []).1 [(p, e)]).1 =
      sepJoin e parts := by
  rw [anonymize_single _ p e he, reSubAll_sepJoin e true _ parts hce, gapJoin_const]
  rw [de_anonymize_single]
  by_cases hpp : strStartsWith "person_".toList p = true
  · have hl := hperson hpp
    simp only [de_anon_step, if_neg hp, if_pos hpp, if_pos hl]
    rw [reSubAll_sepJoin _ _ _ _ hcb, gapJoin_const]
  · simp only [de_anon_step, if_neg hp, if_neg hpp]
    rw [reSubAll_sepJoin _ _ _ _ hcb, gapJoin_const]

/-- C1 (witness): instantiation of the amended round trip on
`"cat and cat"` with the single entry `(org_001, cat)`. -/
theorem claim_C1_roundtrip_amended_witness :
    (de_anonymize_text_logic
        (anonymize_text_logic "cat and cat".toList [("org_001".toList, "cat".toList)] []).1
        [("org_001".toList, "cat".toList)]).1 = "cat and cat".toList := by
  have h := claim_C1_roundtrip_amended "org_001".toList "cat".toList
    ["".toList, " and ".toList, "".toList] (by decide) (by decide) (by decide)
    (by decide) (by decide)
  exact h

/-- C2 (counterexample): Qtanon.py's `extract_entities_to_csv_data` does not
skip a purely numeric detection whose resolved category is not numeric-safe:
the detection `("123", PERSON)` is demoted to the `misc` category and still
produces a mapping entry (placeholder `misc_001`), with the misc counter
incremented. -/
theorem claim_C2_counterexample :
    extract_entities_to_csv_data [("123".toList, "PERSON".toList)] ["PERSON".toList] =
      [("misc_001".toList, "123".toList)] ∧
    extract_entities_to_csv_data [("123".toList, "PERSON".toList)] ["PERSON".toList] ≠ [] := by
  refine ⟨by decide, by decide⟩

/-- C2 (amended): for a detection whose trimmed surface text is purely
numeric and whose resolved category is one of `person`/`org`/`place`/`thing`,
Qtanon.py's `extract_entities_to_csv_data` does not skip it: it demotes the
category to `misc` and, for a not-yet-seen surface form, emits a
`misc`-prefixed entry and increments the `misc` counter.  The fake-plates.py
variant of `extract_entities_to_csv_data`, by contrast, does skip such a
detection entirely (no entry, no counter change). -/
theorem claim_C2_numeric_demotion :
    (∀ (sel : List Str) (st : List (Str × Str) × (Str → Nat)) (t l : Str),
      selPass sel l = true →
      pyIsNumeric (pyStrip t) = true →
      2 ≤ (pyStrip t).length →
      placeholderCatMap l ∈ fourCats →
      st.1.any (fun q => q.1 == pyStrip t) = false →
      extractStep sel st (t, l) =
        (st.1 ++ [(pyStrip t, render "misc".toList (st.2 "misc".toList + 1))],
          bump st.2 "misc".toList)) ∧
    (∀ (st : List (Str × Str) × (Str → Nat)) (t l : Str),
      pyIsNumeric (pyStrip t) = true → l ∉ fpNumericSafe →
      fpStep st (t, l) = st) := by
  constructor
  · intro sel st t l hsel hnum hlen hcat hseen
    have hne : ¬(pyStrip t = [] ∨ (pyStrip t).length < 2) := by
      rintro (h | h)
      · rw [h] at hlen
        simp at hlen
      · omega
    have hcond : (pyIsNumeric (pyStrip t) && decide (placeholderCatMap l ∈ fourCats)) = true := by
      rw [hnum]
      simpa using hcat
    have hseen' : ¬(st.1.any (fun q => q.1 == pyStrip t) = true) := by
      simp [hseen]
    simp only [extractStep]
    rw [if_pos hsel, if_neg hne, if_pos hcond, if_neg hseen']
  · intro st t l hnum hsafe
    simp only [fpStep]
    split
    · rfl
    · rw [if_pos (show (pyIsNumeric (pyStrip t) && !decide (l ∈ fpNumericSafe)) = true by
        rw [hnum]
        simp [hsafe])]

/-- C2 (witness): instantiation of the amended claim on the detection
`("123", PERSON)` with empty initial state. -/
theorem claim_C2_numeric_demotion_witness :
    (extractStep ["PERSON".toList] ([], fun _ => 0) ("123".toList, "PERSON".toList)).1 =
      [("123".toList, "misc_001".toList)] ∧
    fpStep ([], fun _ => 0) ("123".toList, "PERSON".toList) = ([], fun _ => 0) := by
  constructor
  · rw [claim_C2_numeric_demotion.1 ["PERSON".toList] ([], fun _ => 0) "123".toList
      "PERSON".toList (by decide) (by decide) (by decide) (by decide) (by decide)]
    decide
  · exact claim_C2_numeric_demotion.2 ([], fun _ => 0) "123".toList "PERSON".toList
      (by decide) (by decide)

/-- C7: `read_csv_mapping_for_gui` drops exactly the rows with fewer than two
columns or an empty trimmed column (one warning each), keeps the remaining
rows in order, returns `none` only for an unreadable source, and an
empty-but-readable source yields the empty sequence with a warning —
distinct from failure; in particular a file with one single-column row and
two valid rows loads exactly the two valid entries. -/
theorem claim_C7_csv_partial_success :
    (∀ h : Bool, read_csv_mapping_for_gui none h = none) ∧
    (∀ (rows : List (List Str)) (h : Bool),
      read_csv_mapping_for_gui (some rows) h =
        some (csvKeptSpec (if h then rows.drop 1 else rows),
          ((if h && rows.isEmpty then 1 else 0) +
            (if h then rows.drop 1 else rows).countP (fun r => (csvRowEntrySpec r).isNone)) +
          (if csvKeptSpec (if h then rows.drop 1 else rows) = [] then 1 else 0))) ∧
    (∀ h : Bool, read_csv_mapping_for_gui (some []) h ≠ none ∧
      read_csv_mapping_for_gui (some []) h = some ([], if h then 2 else 1)) ∧
    read_csv_mapping_for_gui
        (some [["only".toList], ["p1".toList, "e1".toList], ["p2".toList, "e2".toList]])
        false =
      some ([("p1".toList, "e1".toList), ("p2".toList, "e2".toList)], 1) := by
  refine ⟨fun _ => rfl, ?_, by intro h; cases h <;> exact ⟨by decide, by decide⟩, by decide⟩
  intro rows h
  simp only [read_csv_mapping_for_gui]
  rw [read_csv_loop_spec]
  simp

/-- C8: the placeholders in the entry list produced by
`extract_entities_to_csv_data` are pairwise distinct, for every detection
sequence and selection: a category counter is only incremented when a new
surface form is admitted, so no two emitted entries share a placeholder. -/
theorem claim_C8_placeholders_distinct (ents : List (Str × Str)) (selected : List Str) :
    ((extract_entities_to_csv_data ents selected).map (fun q => q.1)).Nodup := by
  have main : ∀ (l : List (Str × Str)) (st : List (Str × Str) × (Str → Nat)),
      extInv st → extInv (l.foldl (extractStep selected) st) := by
    intro l
    induction l with
    | nil => intro st h; exact h
    | cons d rest ih => intro st h; exact ih _ (extInv_step selected st d h)
  have hinv := main ents ([], fun _ => 0) ⟨by simp, by simp⟩
  unfold extract_entities_to_csv_data
  have hmap : ((ents.foldl (extractStep selected) ([], fun _ => 0)).1.map
      (fun q => (q.2, q.1))).map (fun q => q.1) =
      (ents.foldl (extractStep selected) ([], fun _ => 0)).1.map (fun q => q.2) := by
    rw [List.map_map]
    rfl
  rw [hmap]
  exact hinv.1

end Qtanon
